import Mathlib

/-!
Verification development for the symmer contextual-subspace pipeline.

The embedding covers `exact_gs_energy` (symmer/utils.py) and the reduction
search loop of scripts/run_cs.py.  Amplitudes and eigenvalues are embedded as
exact rationals; complex numbers are pairs of rationals.  The external
eigensolvers (numpy.linalg.eigh / scipy.sparse.linalg.eigsh) are modelled by
their call signatures (dispatch) and by their outputs (a list of eigenpairs
handed to the post-processing code).  The ordering step np.argsort is modelled
by its contract: it produces some ascending permutation of the solver output
(its tie order with the default quicksort kind is unspecified).
-/

namespace Symmer

/-- Complex scalar with exact rational components. -/
structure Cplx where
  re : ℚ
  im : ℚ
deriving DecidableEq

def Cplx.zero : Cplx := ⟨0, 0⟩

def Cplx.ofRat (q : ℚ) : Cplx := ⟨q, 0⟩

def Cplx.add (a b : Cplx) : Cplx := ⟨a.re + b.re, a.im + b.im⟩

def Cplx.mul (a b : Cplx) : Cplx := ⟨a.re * b.re - a.im * b.im, a.re * b.im + a.im * b.re⟩

/-- Squared magnitude, `np.square(abs(c))`. -/
def Cplx.normSq (a : Cplx) : ℚ := a.re ^ 2 + a.im ^ 2

/-- Sum of a list of complex scalars (the `+=` accumulation over terms). -/
def csum (l : List Cplx) : Cplx := l.foldr Cplx.add Cplx.zero

/-- Bit pattern of computational-basis index `i` on `n` qubits, qubit `j`
holding bit `n-1-j` of `i` (most significant bit first, the symmer basis
convention for state_matrix rows and symplectic blocks). -/
def idxBits (n i : ℕ) : List Bool := (List.range n).map (fun j => i.testBit (n - 1 - j))

/-- Number of positions at which both bit rows are set:
`np.einsum('ij->i', np.bitwise_and(Z_symp, psi.state_matrix))` for one row. -/
def andCount (mask row : List Bool) : ℕ := (List.zipWith (fun a b => a && b) mask row).count true

/-- The sign `(-1) ** parity` as a rational. -/
def signQ (k : ℕ) : ℚ := (-1) ^ k

/-- The slice of symmer's PauliwordOp used by `exact_gs_energy`: boolean
symplectic X/Z blocks (one row per Pauli term) and one complex coefficient
per term. -/
structure PauliwordOp where
  X_block : List (List Bool)
  Z_block : List (List Bool)
  coeff_vec : List Cplx
deriving DecidableEq

/-- `np.any(number_operator.X_block)`: some entry of the X block is set. -/
def PauliwordOp.anyX (P : PauliwordOp) : Bool := P.X_block.any (fun row => row.any (fun b => b))

/-- Modelled from the spec: symmer's QuantumState (symmer.operators, not under
src/) keeps, for each basis component with retained amplitude, the
computational-basis index as a bit array (`state_matrix` row) together with
its complex amplitude (`state_op.coeff_vec`). -/
structure QuantumState where
  n_qubits : ℕ
  state_matrix : List (List Bool)
  coeff_vec : List Cplx
deriving DecidableEq

/-- Modelled from the spec: `QuantumState.from_array` (symmer.operators, not
under src/) builds the bit-pattern representation of a dense amplitude vector,
keeping exactly the basis indices carrying a nonzero amplitude; `n` is the
qubit count (log2 of the vector length). -/
def QuantumState.from_array (n : ℕ) (v : List Cplx) : QuantumState :=
  ⟨n,
   ((List.range v.length).filter
     (fun i => decide (v.getD i Cplx.zero ≠ Cplx.zero))).map (idxBits n),
   ((List.range v.length).filter
     (fun i => decide (v.getD i Cplx.zero ≠ Cplx.zero))).map (fun i => v.getD i Cplx.zero)⟩

/-- Modelled from the spec: `QuantumState.cleanup(zero_threshold=θ)`
(symmer.operators, not under src/) zeroes out (drops) the basis components
whose amplitude magnitude lies below the threshold, i.e. keeps the components
with `normSq ≥ θ²`. -/
def QuantumState.cleanup (ψ : QuantumState) (θ : ℚ) : QuantumState :=
  ⟨ψ.n_qubits,
   ((ψ.state_matrix.zip ψ.coeff_vec).filter
     (fun rc => decide (θ ^ 2 ≤ rc.2.normSq))).map Prod.fst,
   ((ψ.state_matrix.zip ψ.coeff_vec).filter
     (fun rc => decide (θ ^ 2 ≤ rc.2.normSq))).map Prod.snd⟩

/-- Lines 43-50 of utils.py: the number-operator expectation accumulated over
the diagonal (Z) terms; for each term, a ±1 sign per retained basis row from
the parity of the bitwise AND of the Z mask with the row, weighted by the
squared amplitude magnitude, summed over rows, then weighted by the term
coefficient and accumulated. -/
def expval_n_particle (P : PauliwordOp) (ψ : QuantumState) : Cplx :=
  csum ((P.Z_block.zip P.coeff_vec).map (fun zc =>
    zc.2.mul (Cplx.ofRat
      (((ψ.state_matrix.zip ψ.coeff_vec).map (fun rc =>
        signQ (andCount zc.1 rc.1) * rc.2.normSq)).sum))))

/-- The failure modes of `exact_gs_energy`. -/
inductive SymErr where
  /-- line 37: `assert(number_operator is not None)` -/
  | assertNumberOp
  /-- line 42: `assert(~np.any(number_operator.X_block))`, precondition
  violation for a non-diagonal number operator -/
  | assertNotDiagonal
  /-- line 51: builtin `round()` applied to the `np.complex128` accumulator —
  neither `complex` nor `np.complex128` defines `__round__`, so Python raises
  `TypeError` -/
  | typeError
  /-- line 54: `RuntimeError`, no eigenvector of the correct particle number -/
  | noMatchRuntimeError
  /-- indexing `eigvals[0]` on an empty solver output -/
  | indexError
deriving DecidableEq

/-- Banker's rounding (round half to even), the semantics of Python's builtin
`round` on real scalars. -/
def roundHalfEven (q : ℚ) : ℤ :=
  let f := q.floor
  let r := q - (f : ℚ)
  if r < 1 / 2 then f
  else if 1 / 2 < r then f + 1
  else if f % 2 = 0 then f else f + 1

/-- Line 51 of utils.py, `if round(expval_n_particle) == n_particles:`.  The
accumulator `expval_n_particle` starts as the Python int `0` (line 43); each
term accumulation `Z_coeff * np.sum(...)` (line 50) promotes it to
`np.complex128`, because PauliwordOp coefficient vectors are complex dtype.
Python's builtin `round` requires a `__round__` method, which neither
`complex` nor `np.complex128` defines, so with at least one operator term
(the zip of `Z_block` and `coeff_vec` nonempty) line 51 raises `TypeError`;
only with a term-free operator is the accumulator still the int `0` and the
comparison an ordinary integer one. -/
def roundMatch (P : PauliwordOp) (n_particles : ℤ) (ψ : QuantumState) : Except SymErr Bool :=
  if (P.Z_block.zip P.coeff_vec).isEmpty then
    .ok (decide (roundHalfEven (expval_n_particle P ψ).re = n_particles))
  else .error .typeError

/-- The eigenvector cleanup performed at line 41 of utils.py before the
number-operator expectation is taken: build the QuantumState from the raw
dense eigenvector and drop amplitudes below magnitude `1e-5`. -/
def cleanedState (nq : ℕ) (v : List Cplx) : QuantumState :=
  (QuantumState.from_array nq v).cleanup (1 / 100000)

/-- One eigenpair handed back by the eigensolver. -/
structure Eigenpair where
  eigval : ℚ
  eigvec : List Cplx
deriving DecidableEq

/-- Lines 40-54 of utils.py: walk the (sorted) eigenpairs in order; for each,
clean a copy of the eigenvector, assert the number operator is diagonal,
compute the particle-number expectation against the cleaned copy, then
evaluate line 51's `round(expval_n_particle) == n_particles` — which raises
`TypeError` whenever the operator has at least one term — and return the
first pair whose comparison is true, the returned state rebuilt from the raw
eigenvector.  If no pair matches, raise the line-54 `RuntimeError`. -/
def particleSearch (nq : ℕ) (P : PauliwordOp) (n_particles : ℤ) :
    List Eigenpair → Except SymErr (ℚ × QuantumState)
  | [] => .error .noMatchRuntimeError
  | p :: rest =>
    let ψ := cleanedState nq p.eigvec
    if P.anyX then .error .assertNotDiagonal
    else
      match roundMatch P n_particles ψ with
      | .error e => .error e
      | .ok true => .ok (p.eigval, QuantumState.from_array nq p.eigvec)
      | .ok false => particleSearch nq P n_particles rest

/-- Lines 29-54 of utils.py after the solver call: given the eigenpairs
already ordered by increasing eigenvalue, either return the smallest one
(no particle filter) or run the particle-number search. -/
def exact_gs_energy_sorted (nq : ℕ) (eigs : List Eigenpair)
    (n_particles : Option ℤ) (number_operator : Option PauliwordOp) :
    Except SymErr (ℚ × QuantumState) :=
  match n_particles with
  | none =>
    match eigs with
    | [] => .error .indexError
    | p :: _ => .ok (p.eigval, QuantumState.from_array nq p.eigvec)
  | some np_ =>
    match number_operator with
    | none => .error .assertNumberOp
    | some P => particleSearch nq P np_ eigs

/-- Which eigenvalues eigsh is asked for; the call passes `which='SA'`
(smallest algebraic). -/
inductive WhichEigs where
  | SA
deriving DecidableEq

/-- The eigensolver invocation chosen by `exact_gs_energy`. -/
inductive SolverCall where
  /-- `np.linalg.eigh(sparse_matrix.toarray())`: full dense Hermitian
  eigendecomposition, all eigenpairs -/
  | denseEigh
  /-- `sp.sparse.linalg.eigsh(sparse_matrix, k, v0, which, maxiter)` -/
  | sparseEigsh (k : ℕ) (v0 : Option (List Cplx)) (which : WhichEigs) (maxiter : ℚ)
deriving DecidableEq

/-- Lines 21-27 of utils.py: dispatch on the matrix dimension
(`sparse_matrix.shape[0] > 2**5`). -/
def chooseSolver (d : ℕ) (n_eigs : ℕ) (initial_guess : Option (List Cplx)) : SolverCall :=
  if 2 ^ 5 < d then .sparseEigsh n_eigs initial_guess .SA (10 ^ 7) else .denseEigh

/-- How many eigenpairs the chosen solver hands back on a matrix of dimension
`d`: the dense decomposition computes all `d`, eigsh computes the `k`
requested. -/
def numEigsComputed : SolverCall → ℕ → ℕ
  | .denseEigh, d => d
  | .sparseEigsh k _ _ _, _ => k

/-- Ascending eigenvalue order (line 29-31, `np.argsort(eigvals)` applied to
values and vectors). -/
def SortedAsc (l : List Eigenpair) : Prop :=
  l.Pairwise (fun a b => a.eigval ≤ b.eigval)

/-- `s` is an ascending rearrangement of the solver output `raw`: the contract
of the `np.argsort` ordering step. -/
def SortedPermOf (s raw : List Eigenpair) : Prop :=
  s.Perm raw ∧ SortedAsc s

/-! ## The reduction search loop of scripts/run_cs.py (lines 47-74)

The loop body calls three external services per iteration `n` —
`cs_vqe.update_stabilizers`, `cs_vqe.project_onto_subspace` (whose result is
bound to `H_cs`) and `exact_gs_energy` (whose result is bound to
`gs_nrg, gs_psi`) — inside a `try` whose `except` prints `(n, e)` and
continues.  The reduced Hamiltonians, states and exception values are opaque
to the loop, so they are type parameters below; an iteration's observable
outcome is which bindings it performed before completing or raising. -/

/-- Outcome of one loop iteration at qubit count `n`. -/
inductive IterOutcome (H Ψ E : Type) where
  /-- an exception was raised before `H_cs = cs_vqe.project_onto_subspace()`
  completed (in `update_stabilizers` or in the projection itself) -/
  | errBefore (exc : E)
  /-- `H_cs` was assigned, then `exact_gs_energy` raised -/
  | errAfterProject (Hcs : H) (exc : E)
  /-- the whole sequence completed: `H_cs`, `gs_nrg` and `gs_psi` assigned -/
  | solved (Hcs : H) (nrg : ℚ) (psi : Ψ)
deriving DecidableEq

/-- The Python variables live across iterations: `none` models a name that has
not been bound yet; `log` records the `print(n, e)` emitted by the `except`
handler. -/
structure LoopState (H Ψ E : Type) where
  H_cs : Option H
  gs_nrg : Option ℚ
  gs_psi : Option Ψ
  log : List (ℕ × E)
deriving DecidableEq

def initLoopState {H Ψ E : Type} : LoopState H Ψ E := ⟨none, none, none, []⟩

/-- The variable bindings and logging performed by iteration `n`, given its
outcome; a raised exception is caught by the `except` clause, which logs the
failing `n` with the exception. -/
def recordOutcome {H Ψ E : Type} (st : LoopState H Ψ E) (n : ℕ) :
    IterOutcome H Ψ E → LoopState H Ψ E
  | .errBefore e => { st with log := st.log ++ [(n, e)] }
  | .errAfterProject h e => { st with H_cs := some h, log := st.log ++ [(n, e)] }
  | .solved h nrg psi => { st with H_cs := some h, gs_nrg := some nrg, gs_psi := some psi }

/-- The `for n in ...` loop over the remaining iteration values: run each
iteration, record its bindings, and — when the solve completed — break as
soon as `gs_nrg <= fci_energy + 0.0016` (`bound` is that right-hand side).
Returns the final loop state, the final value of the loop variable `n`
(`none` if no iteration ever ran) and whether the `break` was taken. -/
def runList {H Ψ E : Type} (step : ℕ → IterOutcome H Ψ E) (bound : ℚ) :
    List ℕ → LoopState H Ψ E → Option ℕ → LoopState H Ψ E × Option ℕ × Bool
  | [], st, last => (st, last, false)
  | n :: rest, st, _ =>
    let st' := recordOutcome st n (step n)
    match step n with
    | .solved _ nrg _ =>
      if nrg ≤ bound then (st', some n, true)
      else runList step bound rest st' (some n)
    | _ => runList step bound rest st' (some n)

/-- Line 47: `for n in range(1, H.n_qubits - QT.n_taper + 1)`, i.e. the
iteration values `[1, …, maxN]`. -/
def searchLoop {H Ψ E : Type} (step : ℕ → IterOutcome H Ψ E) (bound : ℚ) (maxN : ℕ) :
    LoopState H Ψ E × Option ℕ × Bool :=
  runList step bound (List.range' 1 maxN) initLoopState none

/-- The fields of the pickled record (lines 62-74) that come out of the search
loop itself. -/
structure PickleOutput (H Ψ : Type) where
  H_cs : H
  cs_state : Ψ
  n_cs : ℕ
  fci_energy : ℚ
deriving DecidableEq

/-- The unhandled error the persistence step can raise: referencing a name
(`H_cs`, `gs_psi` or `n`) that no iteration ever bound. -/
inductive ScriptErr where
  | nameError
deriving DecidableEq

/-- Lines 62-74: `pickle.dump({..., "H_cs": H_cs.to_dictionary, "cs_state":
gs_psi, "n_cs": n, "fci_energy": fci_energy, ...})` — it dereferences the
loop-assigned names, raising `NameError` if one was never bound. -/
def persistResults {H Ψ E : Type} (fci : ℚ)
    (r : LoopState H Ψ E × Option ℕ × Bool) : Except ScriptErr (PickleOutput H Ψ) :=
  match r.1.H_cs, r.1.gs_psi, r.2.1 with
  | some h, some p, some n => .ok ⟨h, p, n, fci⟩
  | _, _, _ => .error .nameError

/-- The whole post-tapering part of the script: the search loop with bound
`fci_energy + 0.0016`, followed by the persistence step. -/
def runScript {H Ψ E : Type} (step : ℕ → IterOutcome H Ψ E) (fci : ℚ) (maxN : ℕ) :
    Except ScriptErr (PickleOutput H Ψ) :=
  persistResults fci (searchLoop step (fci + 16 / 10000) maxN)

/-- The value held by the loop variable after traversing the iteration values
`l`, starting from previous value `last`. -/
def lastSeen (l : List ℕ) (last : Option ℕ) : Option ℕ :=
  match l with
  | [] => last
  | n :: rest => lastSeen rest (some n)

/-- The loop state after all iterations in `l` ran without a `break`. -/
def foldStates {H Ψ E : Type} (step : ℕ → IterOutcome H Ψ E)
    (l : List ℕ) (st : LoopState H Ψ E) : LoopState H Ψ E :=
  l.foldl (fun s n => recordOutcome s n (step n)) st

/-! ## Pure computational-basis states and diagonal expectation values -/

/-- Dense amplitude vector of the pure computational-basis state of index `b`
in dimension `d`. -/
def unitVec (d b : ℕ) : List Cplx :=
  (List.range d).map (fun i => if i = b then ⟨1, 0⟩ else ⟨0, 0⟩)

/-- The particle-number expectation exactly as the code computes it
(lines 41-50 of utils.py: from_array, cleanup at `1e-5`, diagonal-expectation
formula) on the pure basis state of index `b` on `nq` qubits. -/
def basisExpval (P : PauliwordOp) (nq b : ℕ) : Cplx :=
  expval_n_particle P (cleanedState nq (unitVec (2 ^ nq) b))

/-- Modelled from the spec: the value a diagonal operator encodes for the
basis state of index `b` — its diagonal entry there, the coefficient-weighted
sum of the ±1 signs each Z mask takes on `b`'s bit pattern. -/
def diagValue (P : PauliwordOp) (nq b : ℕ) : Cplx :=
  csum ((P.Z_block.zip P.coeff_vec).map (fun zc =>
    zc.2.mul (Cplx.ofRat (signQ (andCount zc.1 (idxBits nq b))))))

/-- Boolean row of length `n` set exactly at position `j`. -/
def eRow (n j : ℕ) : List Bool := (List.range n).map (fun k => decide (k = j))

/-- The total particle-number operator on `n` qubits,
`N = Σ_j (I - Z_j)/2`: the identity term with coefficient `n/2` and one
single-qubit Z term per qubit with coefficient `-1/2`; all X rows empty. -/
def numberOperator (n : ℕ) : PauliwordOp :=
  ⟨List.replicate (n + 1) (List.replicate n false),
   List.replicate n false :: (List.range n).map (eRow n),
   Cplx.ofRat ((n : ℚ) / 2) :: List.replicate n (Cplx.ofRat (-(1 / 2)))⟩

/-- Hamming weight of `b` restricted to its `n` low bits. -/
def hammingWeight (n b : ℕ) : ℕ :=
  ((List.range n).filter (fun j => b.testBit j)).length

/-! ## Concrete instances used by witnesses and counterexamples -/

/-- The 1-qubit number operator `(I - Z)/2`: diagonal, terms `I` with
coefficient `1/2` and `Z` with coefficient `-1/2`. -/
def exNumOp : PauliwordOp :=
  ⟨[[false], [false]], [[false], [true]], [⟨1 / 2, 0⟩, ⟨-(1 / 2), 0⟩]⟩

/-- Eigenpair `(0, |0⟩)` of the 1-qubit operator `diag(0, 1)`. -/
def exPair0 : Eigenpair := ⟨0, [⟨1, 0⟩, ⟨0, 0⟩]⟩

/-- Eigenpair `(1, |1⟩)` of the 1-qubit operator `diag(0, 1)`. -/
def exPair1 : Eigenpair := ⟨1, [⟨0, 0⟩, ⟨1, 0⟩]⟩

/-- A 1-qubit operator with nonzero X block (`X` with coefficient `1`). -/
def exXOp : PauliwordOp := ⟨[[true]], [[false]], [⟨1, 0⟩]⟩

/-- A term-free operator (symmer's `PauliwordOp.empty`): the only number
operator on which line 51's `round` runs on the int-0 accumulator instead of
raising `TypeError`. -/
def exEmptyOp : PauliwordOp := ⟨[], [], []⟩

/-- An eigenpair whose raw vector carries a second amplitude below the `1e-5`
cleanup threshold, so the cleaned copy of the state differs from the raw
rebuild. -/
def exPairSmall : Eigenpair := ⟨0, [⟨1, 0⟩, ⟨1 / 200000, 0⟩]⟩

/-- A loop-step instance for witnesses: every iteration completes its solve
with energy 1 (Hamiltonians, states and exceptions indexed by ℕ). -/
def stepOneSolve : ℕ → IterOutcome ℕ ℕ ℕ := fun _ => .solved 0 1 0

/-- A loop-step instance on which every iteration raises before the
projection result is bound. -/
def stepAllFail : ℕ → IterOutcome ℕ ℕ ℕ := fun _ => .errBefore 0

/-! ## Claim theorems -/

/-- C1: `exact_gs_energy` dispatches on the matrix dimension: for `d ≤ 32` it
performs the full dense Hermitian eigendecomposition (computing all `d`
eigenpairs), otherwise it invokes the iterative sparse Hermitian eigensolver
requesting exactly the `n_eigs` algebraically smallest eigenvalues, seeded by
the optional initial guess. -/
theorem exact_gs_energy_dispatch (d n_eigs : ℕ) (g : Option (List Cplx)) :
    (d ≤ 32 →
      chooseSolver d n_eigs g = .denseEigh ∧
      numEigsComputed (chooseSolver d n_eigs g) d = d) ∧
    (32 < d →
      chooseSolver d n_eigs g = .sparseEigsh n_eigs g .SA (10 ^ 7) ∧
      numEigsComputed (chooseSolver d n_eigs g) d = n_eigs) := by
  constructor
  · intro h
    have hd : ¬ 2 ^ 5 < d := by omega
    rw [chooseSolver, if_neg hd]
    exact ⟨rfl, rfl⟩
  · intro h
    have hd : 2 ^ 5 < d := by omega
    rw [chooseSolver, if_pos hd]
    exact ⟨rfl, rfl⟩

/-- Witness for C1 at dimensions 16 (dense) and 64 (sparse). -/
theorem exact_gs_energy_dispatch_witness :
    (chooseSolver 16 6 none = .denseEigh ∧
      numEigsComputed (chooseSolver 16 6 none) 16 = 16) ∧
    (chooseSolver 64 6 none = .sparseEigsh 6 none .SA (10 ^ 7) ∧
      numEigsComputed (chooseSolver 64 6 none) 64 = 6) :=
  ⟨(exact_gs_energy_dispatch 16 6 none).1 (by norm_num),
   (exact_gs_energy_dispatch 64 6 none).2 (by norm_num)⟩

/-- C2: with no particle-number filter, `exact_gs_energy` returns the head of
the ascending rearrangement of the solver's eigenpairs — an eigenpair of the
solver output whose eigenvalue is smallest among all computed eigenvalues. -/
theorem exact_gs_energy_returns_min (nq : ℕ) (raw s : List Eigenpair)
    (nop : Option PauliwordOp) (hs : SortedPermOf s raw) (hne : raw ≠ []) :
    ∃ p : Eigenpair, s.head? = some p ∧
      exact_gs_energy_sorted nq s none nop =
        .ok (p.eigval, QuantumState.from_array nq p.eigvec) ∧
      p ∈ raw ∧ ∀ q ∈ raw, p.eigval ≤ q.eigval := by
  obtain ⟨hperm, hsort⟩ := hs
  cases s with
  | nil => exact absurd hperm.nil_eq.symm hne
  | cons p t =>
    refine ⟨p, rfl, rfl, hperm.mem_iff.mp (List.mem_cons_self p t), ?_⟩
    intro q hq
    rcases List.mem_cons.mp (hperm.mem_iff.mpr hq) with h | h
    · subst h; exact le_refl _
    · exact (List.pairwise_cons.mp hsort).1 q h

/-- Witness for C2: the solver output `[(1,|1⟩), (0,|0⟩)]` sorted to
`[(0,|0⟩), (1,|1⟩)]`; the pair with eigenvalue 0 is returned. -/
theorem exact_gs_energy_returns_min_witness :
    ∃ p : Eigenpair, ([exPair0, exPair1].head? = some p) ∧
      exact_gs_energy_sorted 1 [exPair0, exPair1] none none =
        .ok (p.eigval, QuantumState.from_array 1 p.eigvec) ∧
      p ∈ [exPair1, exPair0] ∧ ∀ q ∈ [exPair1, exPair0], p.eigval ≤ q.eigval :=
  exact_gs_energy_returns_min 1 [exPair1, exPair0] [exPair0, exPair1] none
    ⟨List.Perm.swap exPair1 exPair0 [],
     by norm_num [SortedAsc, List.pairwise_cons, exPair0, exPair1]⟩
    (by simp)

/-- C3: with a particle-number filter requested and a number operator with
nonzero off-diagonal (X) support, `exact_gs_energy` always hits the
`Number operator not diagonal` assertion (the solver hands back at least one
eigenpair, and the assertion is checked before any return). -/
theorem exact_gs_energy_nondiagonal_raises (nq : ℕ) (np_ : ℤ) (P : PauliwordOp)
    (eigs : List Eigenpair) (hne : eigs ≠ []) (hX : P.anyX = true) :
    exact_gs_energy_sorted nq eigs (some np_) (some P) =
      .error .assertNotDiagonal := by
  cases eigs with
  | nil => exact absurd rfl hne
  | cons p rest => simp [exact_gs_energy_sorted, particleSearch, hX]

/-- Witness for C3: a single-term `X` operator as number operator. -/
theorem exact_gs_energy_nondiagonal_raises_witness :
    exact_gs_energy_sorted 1 [exPair0] (some 1) (some exXOp) =
      .error .assertNotDiagonal :=
  exact_gs_energy_nondiagonal_raises 1 1 exXOp [exPair0] (by simp) rfl

/-- C4: the embedded code evaluated at the claim's own scenario inputs.  On
the sorted eigenpairs of `diag(0, 1)` with the 1-qubit number operator
`(I - Z)/2` — diagonal, with the complex-dtype coefficients every PauliwordOp
carries — and `n_particles = 1`, the search raises `TypeError` inside builtin
`round()` at line 51 on the very first eigenpair: with a one-pair window (the
`n_eigs = 1` sparse-path shape) it does not raise the claimed
`particle-number match not found` error, and with both pairs available
(`n_eigs = 2`) it does not return the matching second pair. -/
theorem particle_window_typeerror :
    particleSearch 1 exNumOp 1 [exPair0] = .error .typeError ∧
    particleSearch 1 exNumOp 1 [exPair0, exPair1] = .error .typeError := by
  constructor
  · with_unfolding_all rfl
  · with_unfolding_all rfl

/-- C10: whenever the particle-number search returns a result, the returned
eigenpair is one of the input eigenpairs with its state rebuilt from the raw
eigenvector — the `1e-5` cleanup is applied only to the copy used for the
expectation value at lines 41-50 and never alters the returned state of
line 52. -/
theorem returned_state_uncleaned (nq : ℕ) (P : PauliwordOp) (np_ : ℤ)
    (eigs : List Eigenpair) (e : ℚ) (st : QuantumState)
    (h : particleSearch nq P np_ eigs = .ok (e, st)) :
    ∃ p ∈ eigs, e = p.eigval ∧ st = QuantumState.from_array nq p.eigvec := by
  induction eigs with
  | nil => simp [particleSearch] at h
  | cons p rest ih =>
    by_cases hX : P.anyX = true
    · simp [particleSearch, hX] at h
    · cases hr : roundMatch P np_ (cleanedState nq p.eigvec) with
      | error err => simp [particleSearch, hX, hr] at h
      | ok b =>
        cases b with
        | true =>
          simp [particleSearch, hX, hr] at h
          exact ⟨p, List.mem_cons_self p rest, h.1.symm, h.2.symm⟩
        | false =>
          simp [particleSearch, hX, hr] at h
          obtain ⟨q, hq, hrest⟩ := ih h
          exact ⟨q, List.mem_cons_of_mem p hq, hrest⟩

/-- Witness for C10 on the one path where line 52's return is reachable (a
term-free number operator, whose accumulator stays the Python int 0): the
returned state is the raw rebuild of an eigenvector carrying a sub-threshold
amplitude, which the cleaned copy used for the expectation drops — the
cleanup demonstrably did not alter the returned state. -/
theorem returned_state_uncleaned_witness :
    (∃ p ∈ [exPairSmall], (0 : ℚ) = p.eigval ∧
      QuantumState.from_array 1 exPairSmall.eigvec =
        QuantumState.from_array 1 p.eigvec) ∧
    cleanedState 1 exPairSmall.eigvec ≠ QuantumState.from_array 1 exPairSmall.eigvec :=
  ⟨returned_state_uncleaned 1 exEmptyOp 0 [exPairSmall] 0
      (QuantumState.from_array 1 exPairSmall.eigvec) (by with_unfolding_all rfl),
   by with_unfolding_all decide⟩

/-- Every run only appends to the `except`-handler log. -/
theorem runList_log_extends {H Ψ E : Type} (step : ℕ → IterOutcome H Ψ E) (bound : ℚ) :
    ∀ (l : List ℕ) (st : LoopState H Ψ E) (last : Option ℕ),
      ∃ t, (runList step bound l st last).1.log = st.log ++ t := by
  intro l
  induction l with
  | nil => exact fun st last => ⟨[], by simp [runList]⟩
  | cons n rest ih =>
    intro st last
    cases hstep : step n with
    | errBefore e =>
      obtain ⟨t, ht⟩ := ih (recordOutcome st n (.errBefore e)) (some n)
      refine ⟨(n, e) :: t, ?_⟩
      rw [runList]
      simp only [hstep]
      rw [ht]
      simp [recordOutcome]
    | errAfterProject hc e =>
      obtain ⟨t, ht⟩ := ih (recordOutcome st n (.errAfterProject hc e)) (some n)
      refine ⟨(n, e) :: t, ?_⟩
      rw [runList]
      simp only [hstep]
      rw [ht]
      simp [recordOutcome]
    | solved hc nrg ps =>
      by_cases hle : nrg ≤ bound
      · refine ⟨[], ?_⟩
        rw [runList]
        simp only [hstep]
        rw [if_pos hle]
        simp [recordOutcome]
      · obtain ⟨t, ht⟩ := ih (recordOutcome st n (.solved hc nrg ps)) (some n)
        refine ⟨t, ?_⟩
        rw [runList]
        simp only [hstep]
        rw [if_neg hle, ht]
        simp [recordOutcome]

/-- If no iteration in `l` solves with energy within the bound, the loop
traverses all of `l`, folds the bindings, ends at the last iteration value
and never takes the `break`. -/
theorem runList_no_converge {H Ψ E : Type} (step : ℕ → IterOutcome H Ψ E) (bound : ℚ) :
    ∀ (l : List ℕ) (st : LoopState H Ψ E) (last : Option ℕ),
      (∀ n ∈ l, ∀ (hc : H) (nrg : ℚ) (ps : Ψ), step n = .solved hc nrg ps → ¬ nrg ≤ bound) →
      runList step bound l st last = (foldStates step l st, lastSeen l last, false) := by
  intro l
  induction l with
  | nil => intro st last _; simp [runList, foldStates, lastSeen]
  | cons n rest ih =>
    intro st last h
    have hrest : ∀ m ∈ rest, ∀ (hc : H) (nrg : ℚ) (ps : Ψ),
        step m = .solved hc nrg ps → ¬ nrg ≤ bound :=
      fun m hm => h m (List.mem_cons_of_mem n hm)
    cases hstep : step n with
    | errBefore e =>
      rw [runList]
      simp only [hstep]
      rw [ih _ _ hrest]
      simp [foldStates, lastSeen, hstep]
    | errAfterProject hc e =>
      rw [runList]
      simp only [hstep]
      rw [ih _ _ hrest]
      simp [foldStates, lastSeen, hstep]
    | solved hc nrg ps =>
      have hgt : ¬ nrg ≤ bound := h n (List.mem_cons_self n rest) hc nrg ps hstep
      rw [runList]
      simp only [hstep]
      rw [if_neg hgt, ih _ _ hrest]
      simp [foldStates, lastSeen, hstep]

/-- After the loop over `[s, …, s+k-1]` (nonempty), the loop variable holds
the last value. -/
theorem lastSeen_range' : ∀ (k s : ℕ) (last : Option ℕ), 1 ≤ k →
    lastSeen (List.range' s k) last = some (s + k - 1) := by
  intro k
  induction k with
  | zero => intro s last h; omega
  | succ k ih =>
    intro s last _
    rw [List.range'_succ]
    cases k with
    | zero => simp [lastSeen]
    | succ k' =>
      rw [lastSeen, ih (s + 1) (some s) (by omega)]
      congr 1
      omega

/-- `recordOutcome` never unbinds `H_cs`. -/
theorem recordOutcome_H_mono {H Ψ E : Type} (st : LoopState H Ψ E) (n : ℕ)
    (o : IterOutcome H Ψ E) (h : st.H_cs.isSome = true) :
    ((recordOutcome st n o).H_cs).isSome = true := by
  cases o with
  | errBefore e => simpa [recordOutcome] using h
  | errAfterProject hc e => simp [recordOutcome]
  | solved hc nrg ps => simp [recordOutcome]

/-- `recordOutcome` never unbinds `gs_psi`. -/
theorem recordOutcome_psi_mono {H Ψ E : Type} (st : LoopState H Ψ E) (n : ℕ)
    (o : IterOutcome H Ψ E) (h : st.gs_psi.isSome = true) :
    ((recordOutcome st n o).gs_psi).isSome = true := by
  cases o with
  | errBefore e => simpa [recordOutcome] using h
  | errAfterProject hc e => simpa [recordOutcome] using h
  | solved hc nrg ps => simp [recordOutcome]

/-- Once `H_cs` and `gs_psi` are bound, they stay bound through the rest of
the loop. -/
theorem foldStates_keeps {H Ψ E : Type} (step : ℕ → IterOutcome H Ψ E) :
    ∀ (l : List ℕ) (st : LoopState H Ψ E),
      st.H_cs.isSome = true → st.gs_psi.isSome = true →
      (foldStates step l st).H_cs.isSome = true ∧
      (foldStates step l st).gs_psi.isSome = true := by
  intro l
  induction l with
  | nil => intro st h1 h2; exact ⟨h1, h2⟩
  | cons n rest ih =>
    intro st h1 h2
    have e : foldStates step (n :: rest) st =
        foldStates step rest (recordOutcome st n (step n)) := rfl
    rw [e]
    exact ih _ (recordOutcome_H_mono st n (step n) h1)
      (recordOutcome_psi_mono st n (step n) h2)

/-- If some iteration in `l` completed its solve, then after the full
traversal both `H_cs` and `gs_psi` are bound. -/
theorem foldStates_solved {H Ψ E : Type} (step : ℕ → IterOutcome H Ψ E) :
    ∀ (l : List ℕ) (st : LoopState H Ψ E) (n : ℕ), n ∈ l →
      (∃ (hc : H) (nrg : ℚ) (ps : Ψ), step n = .solved hc nrg ps) →
      (foldStates step l st).H_cs.isSome = true ∧
      (foldStates step l st).gs_psi.isSome = true := by
  intro l
  induction l with
  | nil => intro st n hn; exact absurd hn (List.not_mem_nil n)
  | cons m rest ih =>
    intro st n hn hsol
    have e : foldStates step (m :: rest) st =
        foldStates step rest (recordOutcome st m (step m)) := rfl
    rw [e]
    rcases List.mem_cons.mp hn with rfl | hmem
    · obtain ⟨hc, nrg, ps, hs⟩ := hsol
      have hb : (recordOutcome st n (step n)).H_cs.isSome = true ∧
          (recordOutcome st n (step n)).gs_psi.isSome = true := by
        rw [hs]; simp [recordOutcome]
      exact foldStates_keeps step rest _ hb.1 hb.2
    · exact ih _ n hmem hsol

/-- C7: in every iteration of the search loop, the solved energy is compared
against the bound `reference_energy + 0.0016`: if it is ≤ the bound the loop
halts there with the `break` taken — the result does not depend on any of the
remaining (larger) iteration values — otherwise the loop advances to the
remaining iterations, the next of which, in the actual loop over
`range(1, maxN+1)`, is `n + 1`. -/
theorem search_halt_or_advance {H Ψ E : Type} (step : ℕ → IterOutcome H Ψ E)
    (bound : ℚ) (n : ℕ) (rest : List ℕ) (st : LoopState H Ψ E) (last : Option ℕ)
    (hc : H) (nrg : ℚ) (ps : Ψ) (hstep : step n = .solved hc nrg ps) :
    ((nrg ≤ bound → ∀ rest' : List ℕ, runList step bound (n :: rest') st last =
        (recordOutcome st n (step n), some n, true)) ∧
     (¬ nrg ≤ bound → runList step bound (n :: rest) st last =
        runList step bound rest (recordOutcome st n (step n)) (some n))) ∧
    (∀ maxN : ℕ, 1 ≤ n → n ≤ maxN →
      List.range' 1 maxN = List.range' 1 (n - 1) ++ n :: List.range' (n + 1) (maxN - n)) := by
  refine ⟨⟨?_, ?_⟩, ?_⟩
  · intro hle rest'
    rw [runList]
    simp only [hstep]
    rw [if_pos hle]
  · intro hgt
    rw [runList]
    simp only [hstep]
    rw [if_neg hgt]
  · intro maxN h1 hn
    have h2 : 1 + (n - 1) = n := by omega
    have h3 : maxN - n + 1 + (n - 1) = maxN := by omega
    calc List.range' 1 maxN
        = List.range' 1 (maxN - n + 1 + (n - 1)) := by rw [h3]
      _ = List.range' 1 (n - 1) ++ List.range' (1 + (n - 1)) (maxN - n + 1) :=
          (List.range'_append_1 1 (n - 1) (maxN - n + 1)).symm
      _ = List.range' 1 (n - 1) ++ List.range' n (maxN - n + 1) := by rw [h2]
      _ = List.range' 1 (n - 1) ++ (n :: List.range' (n + 1) (maxN - n)) := by
          rw [List.range'_succ n (maxN - n) 1]

/-- Witness for C7: a loop whose first iteration solves with energy 1 under
bound 2 halts at `n = 1` regardless of the remaining iterations, shown at the
concrete remaining list `[2]`. -/
theorem search_halt_or_advance_witness :
    runList stepOneSolve 2 (1 :: [2]) initLoopState none =
      (recordOutcome initLoopState 1 (stepOneSolve 1), some 1, true) :=
  ((search_halt_or_advance stepOneSolve 2 1 [2] initLoopState none 0 1 0 rfl).1.1
    (by norm_num)) [2]

/-- C8: an exception raised by an iteration's stabilizer-growth / projection /
solve sequence (whether before or after `H_cs` was assigned) is caught at the
loop level: the loop's result is the run of the remaining iterations from the
recorded state — it does not abort — and the pair of the failing `n` with the
exception is in the final log. -/
theorem search_error_logged_continues {H Ψ E : Type} (step : ℕ → IterOutcome H Ψ E)
    (bound : ℚ) (n : ℕ) (rest : List ℕ) (st : LoopState H Ψ E) (last : Option ℕ)
    (e : E) (herr : step n = .errBefore e ∨ ∃ hc : H, step n = .errAfterProject hc e) :
    runList step bound (n :: rest) st last =
      runList step bound rest (recordOutcome st n (step n)) (some n) ∧
    (n, e) ∈ (runList step bound (n :: rest) st last).1.log := by
  have hcont : runList step bound (n :: rest) st last =
      runList step bound rest (recordOutcome st n (step n)) (some n) := by
    rcases herr with h | ⟨hc, h⟩ <;> (rw [runList]; simp only [h])
  refine ⟨hcont, ?_⟩
  rw [hcont]
  obtain ⟨t, ht⟩ := runList_log_extends step bound rest (recordOutcome st n (step n)) (some n)
  rw [ht]
  have hmem : (n, e) ∈ (recordOutcome st n (step n)).log := by
    rcases herr with h | ⟨hc, h⟩ <;> simp [recordOutcome, h]
  exact List.mem_append_left t hmem

/-- Witness for C8: a loop whose iteration 1 raises is logged as `(1, 0)` and
continues with iteration 2. -/
theorem search_error_logged_continues_witness :
    (runList stepAllFail (16 / 10000) (1 :: [2]) initLoopState none =
      runList stepAllFail (16 / 10000) [2]
        (recordOutcome initLoopState 1 (stepAllFail 1)) (some 1)) ∧
    (1, 0) ∈ (runList stepAllFail (16 / 10000) (1 :: [2]) initLoopState none).1.log :=
  search_error_logged_continues stepAllFail (16 / 10000) 1 [2] initLoopState none 0
    (Or.inl rfl)

/-- C9 counterexample: a run in which every iteration raises before the
projection binds `H_cs` reaches the maximum qubit count without converging,
and then the persistence step itself fails — `pickle.dump` dereferences the
never-bound `H_cs`/`gs_psi`, raising a `NameError` that propagates — so the
run does not terminate in a non-exception state with results persisted. -/
theorem budget_exhaustion_counterexample :
    (searchLoop stepAllFail (0 + 16 / 10000) 1).2.2 = false ∧
    runScript stepAllFail 0 1 = .error .nameError := by
  constructor
  · with_unfolding_all rfl
  · with_unfolding_all rfl

/-- C9 amended: when the loop exhausts its budget without any iteration
meeting the tolerance, the run terminates in a reportable non-exception state
with the final results persisted, provided at least one iteration completed
its solve (so that the names the persistence step dereferences are bound);
if every iteration failed, the persistence step raises an unhandled
`NameError` instead.  The persisted record carries no explicit convergence
flag, so the caller must inspect it against the reference energy. -/
theorem budget_exhaustion_amended {H Ψ E : Type} (step : ℕ → IterOutcome H Ψ E)
    (fci : ℚ) (maxN : ℕ) (h1 : 1 ≤ maxN)
    (hnc : ∀ n ∈ List.range' 1 maxN, ∀ (hc : H) (nrg : ℚ) (ps : Ψ),
      step n = .solved hc nrg ps → ¬ nrg ≤ fci + 16 / 10000)
    (hsv : ∃ n ∈ List.range' 1 maxN, ∃ (hc : H) (nrg : ℚ) (ps : Ψ),
      step n = .solved hc nrg ps) :
    (searchLoop step (fci + 16 / 10000) maxN).2.2 = false ∧
    (searchLoop step (fci + 16 / 10000) maxN).2.1 = some maxN ∧
    ∃ out : PickleOutput H Ψ, runScript step fci maxN = .ok out ∧
      out.n_cs = maxN ∧ out.fci_energy = fci := by
  have hrun : searchLoop step (fci + 16 / 10000) maxN =
      (foldStates step (List.range' 1 maxN) initLoopState,
       lastSeen (List.range' 1 maxN) none, false) :=
    runList_no_converge step (fci + 16 / 10000) (List.range' 1 maxN)
      initLoopState none hnc
  have hlast : lastSeen (List.range' 1 maxN) none = some maxN := by
    rw [lastSeen_range' maxN 1 none h1]
    congr 1
    omega
  obtain ⟨n, hn, hsol⟩ := hsv
  have hbind := foldStates_solved step (List.range' 1 maxN) initLoopState n hn hsol
  obtain ⟨h, hH⟩ := Option.isSome_iff_exists.mp hbind.1
  obtain ⟨p, hp⟩ := Option.isSome_iff_exists.mp hbind.2
  refine ⟨by rw [hrun], by rw [hrun]; exact hlast, ⟨h, p, maxN, fci⟩, ?_, rfl, rfl⟩
  rw [runScript, hrun]
  simp [persistResults, hH, hp, hlast]

/-- Witness for the amended C9: a single-iteration loop whose solve completes
with energy 1 against reference energy 0 (tolerance 0.0016) exhausts the
budget, yet the run persists its results without an exception. -/
theorem budget_exhaustion_amended_witness :
    (searchLoop stepOneSolve ((0 : ℚ) + 16 / 10000) 1).2.2 = false ∧
    (searchLoop stepOneSolve ((0 : ℚ) + 16 / 10000) 1).2.1 = some 1 ∧
    ∃ out : PickleOutput ℕ ℕ, runScript stepOneSolve (0 : ℚ) 1 = .ok out ∧
      out.n_cs = 1 ∧ out.fci_energy = 0 :=
  budget_exhaustion_amended stepOneSolve 0 1 (le_refl 1)
    (by
      intro n hn hc nrg ps hs
      simp only [stepOneSolve, IterOutcome.solved.injEq] at hs
      rw [← hs.2.1]
      norm_num)
    ⟨1, by decide, 0, 1, 0, rfl⟩

/-! ## Helper lemmas for the pure-basis-state expectation (C5) -/

theorem Cplx.add_ofRat (a b : ℚ) :
    Cplx.add (Cplx.ofRat a) (Cplx.ofRat b) = Cplx.ofRat (a + b) := by
  simp [Cplx.add, Cplx.ofRat]

theorem Cplx.mul_ofRat (a b : ℚ) :
    Cplx.mul (Cplx.ofRat a) (Cplx.ofRat b) = Cplx.ofRat (a * b) := by
  simp [Cplx.mul, Cplx.ofRat]

theorem csum_nil : csum [] = Cplx.zero := rfl

theorem csum_cons (x : Cplx) (l : List Cplx) : csum (x :: l) = Cplx.add x (csum l) := rfl

theorem csum_map_ofRat {α : Type} (f : α → ℚ) (l : List α) :
    csum (l.map (fun x => Cplx.ofRat (f x))) = Cplx.ofRat ((l.map f).sum) := by
  induction l with
  | nil => simp [csum, Cplx.zero, Cplx.ofRat]
  | cons x t ih =>
    rw [List.map_cons, csum_cons, ih, List.map_cons, List.sum_cons, Cplx.add_ofRat]

/-- A boolean predicate on ℕ that can only hold at `j < d` filters `range d`
to `[j]` or to nothing, according to its value at `j`. -/
theorem filter_range_eq_single (p : ℕ → Bool) (j : ℕ) :
    ∀ d : ℕ, j < d → (∀ k, p k = true → k = j) →
      (List.range d).filter p = if p j then [j] else [] := by
  intro d
  induction d with
  | zero => intro hj; omega
  | succ d ih =>
    intro hj hp
    rw [List.range_succ, List.filter_append]
    by_cases hjd : j < d
    · rw [ih hjd hp]
      have hd : p d = false := by
        cases hpd : p d with
        | true => exact absurd (hp d hpd) (by omega)
        | false => rfl
      simp [List.filter, hd]
    · have hje : j = d := by omega
      subst hje
      have h1 : (List.range j).filter p = [] := by
        rw [List.filter_eq_nil_iff]
        intro a ha
        cases hpa : p a with
        | false => simp
        | true =>
          have := hp a hpa
          rw [List.mem_range] at ha
          omega
      rw [h1]
      cases hpj : p j with
      | true => simp [List.filter, hpj]
      | false => simp [List.filter, hpj]

theorem unitVec_length (d b : ℕ) : (unitVec d b).length = d := by
  simp [unitVec]

theorem unitVec_getD (d b i : ℕ) (hi : i < d) :
    (unitVec d b).getD i Cplx.zero = if i = b then ⟨1, 0⟩ else ⟨0, 0⟩ := by
  rw [unitVec, List.getD_eq_getElem?_getD, List.getElem?_map, List.getElem?_range hi]
  rfl

theorem unitVec_getD_ge (d b i : ℕ) (hi : ¬ i < d) :
    (unitVec d b).getD i Cplx.zero = Cplx.zero := by
  apply List.getD_eq_default
  rw [unitVec_length]
  omega

/-- `from_array` of a pure basis vector keeps exactly the one nonzero
component: the bit row of `b` with amplitude 1. -/
theorem from_array_unitVec (nq d b : ℕ) (hb : b < d) :
    QuantumState.from_array nq (unitVec d b) = ⟨nq, [idxBits nq b], [⟨1, 0⟩]⟩ := by
  rw [QuantumState.from_array, unitVec_length]
  have hfil : (List.range d).filter
      (fun i => decide ((unitVec d b).getD i Cplx.zero ≠ Cplx.zero)) = [b] := by
    have hp : ∀ k, (decide ((unitVec d b).getD k Cplx.zero ≠ Cplx.zero)) = true → k = b := by
      intro k hk
      rw [decide_eq_true_eq] at hk
      by_contra hne
      apply hk
      by_cases hkd : k < d
      · rw [unitVec_getD d b k hkd, if_neg hne]
        rfl
      · exact unitVec_getD_ge d b k hkd
    rw [filter_range_eq_single _ b d hb hp]
    have hpb : (decide ((unitVec d b).getD b Cplx.zero ≠ Cplx.zero)) = true := by
      rw [decide_eq_true_eq, unitVec_getD d b b hb, if_pos rfl]
      intro hcon
      have : (1 : ℚ) = 0 := congrArg Cplx.re hcon
      norm_num at this
    rw [if_pos hpb]
  rw [hfil]
  have hgb : (unitVec d b).getD b Cplx.zero = ⟨1, 0⟩ := by
    rw [unitVec_getD d b b hb, if_pos rfl]
  simp only [List.map_cons, List.map_nil]
  rw [hgb]

/-- The `1e-5` cleanup keeps a pure amplitude-1 component. -/
theorem cleanup_pure (nq : ℕ) (row : List Bool) :
    (QuantumState.mk nq [row] [⟨1, 0⟩]).cleanup (1 / 100000) =
      ⟨nq, [row], [⟨1, 0⟩]⟩ := by
  rw [QuantumState.cleanup]
  have hkeep : (decide (((1 : ℚ) / 100000) ^ 2 ≤ Cplx.normSq ⟨1, 0⟩)) = true := by
    rw [decide_eq_true_eq]
    norm_num [Cplx.normSq]
  have hzip : ((QuantumState.mk nq [row] [⟨1, 0⟩]).state_matrix.zip
      (QuantumState.mk nq [row] [⟨1, 0⟩]).coeff_vec) = [(row, (⟨1, 0⟩ : Cplx))] := rfl
  rw [hzip, List.filter_cons, if_pos hkeep, List.filter_nil]
  rfl

/-- On a single-row state of amplitude 1, the expectation formula collapses
to the coefficient-weighted signs on that row. -/
theorem expval_single_row (P : PauliwordOp) (nq : ℕ) (row : List Bool) :
    expval_n_particle P ⟨nq, [row], [⟨1, 0⟩]⟩ =
      csum ((P.Z_block.zip P.coeff_vec).map (fun zc =>
        zc.2.mul (Cplx.ofRat (signQ (andCount zc.1 row))))) := by
  rw [expval_n_particle]
  congr 1
  apply List.map_congr_left
  intro zc _
  congr 1
  have : ((QuantumState.mk nq [row] [⟨1, 0⟩]).state_matrix.zip
      (QuantumState.mk nq [row] [⟨1, 0⟩]).coeff_vec) = [(row, (⟨1, 0⟩ : Cplx))] := rfl
  rw [this, List.map_cons, List.map_nil, List.sum_cons, List.sum_nil]
  congr 1
  norm_num [Cplx.normSq]

theorem andCount_replicate_false : ∀ (n : ℕ) (row : List Bool),
    andCount (List.replicate n false) row = 0 := by
  intro n
  induction n with
  | zero => intro row; rfl
  | succ n ih =>
    intro row
    cases row with
    | nil => rfl
    | cons r t =>
      rw [andCount, List.replicate_succ, List.zipWith_cons_cons]
      rw [show (false && r) = false from Bool.false_and r]
      rw [List.count_cons]
      simp only [show (false == true) = false from rfl, if_false, Bool.false_eq_true,
        reduceIte]
      exact ih t

theorem count_true_map (h : ℕ → Bool) (l : List ℕ) :
    (l.map h).count true = l.countP h := by
  rw [List.count_eq_countP, List.countP_map]
  have : ((fun x => x == true) ∘ h) = h := by
    funext a
    simp [Function.comp]
  rw [this]

/-- The AND-parity count of the unit mask at `j` against the bit row of `b`:
1 precisely when bit `n-1-j` of `b` is set (for `j < n`). -/
theorem andCount_eRow (n b j : ℕ) (hj : j < n) :
    andCount (eRow n j) (idxBits n b) =
      if b.testBit (n - 1 - j) then 1 else 0 := by
  rw [andCount, eRow, idxBits, List.zipWith_map, List.zipWith_same, count_true_map]
  rw [List.countP_eq_length_filter]
  have hp : ∀ k, ((fun k => decide (k = j) && b.testBit (n - 1 - k)) k) = true → k = j := by
    intro k hk
    rw [Bool.and_eq_true, decide_eq_true_eq] at hk
    exact hk.1
  rw [filter_range_eq_single _ j n hj hp]
  by_cases hbit : b.testBit (n - 1 - j)
  · rw [if_pos hbit]
    have : ((fun k => decide (k = j) && b.testBit (n - 1 - k)) j) = true := by
      rw [Bool.and_eq_true, decide_eq_true_eq]
      exact ⟨rfl, hbit⟩
    rw [if_pos this]
    rfl
  · rw [if_neg hbit]
    have hfj : (decide (j = j) && b.testBit (n - 1 - j)) = false := by
      simp [hbit]
    rw [if_neg (by rw [hfj]; exact Bool.false_ne_true)]
    rfl

theorem signQ_zero : signQ 0 = 1 := pow_zero (-1 : ℚ)

theorem signQ_one : signQ 1 = -1 := pow_one (-1 : ℚ)

theorem zip_map_replicate {β : Type} (f : ℕ → List Bool) (c : β) :
    ∀ l : List ℕ, (l.map f).zip (List.replicate l.length c) =
      l.map (fun x => (f x, c)) := by
  intro l
  induction l with
  | nil => rfl
  | cons x t ih =>
    rw [List.map_cons, List.length_cons, List.replicate_succ, List.zip_cons_cons,
      ih, List.map_cons]

theorem zip_map_range_replicate {β : Type} (f : ℕ → List Bool) (c : β) (n : ℕ) :
    ((List.range n).map f).zip (List.replicate n c) =
      (List.range n).map (fun x => (f x, c)) := by
  have h := zip_map_replicate f c (List.range n)
  rwa [List.length_range] at h

theorem sum_map_range_reflect (f : ℕ → ℚ) :
    ∀ n : ℕ, ((List.range n).map (fun j => f (n - 1 - j))).sum =
      ((List.range n).map f).sum := by
  intro n
  induction n with
  | zero => rfl
  | succ n ih =>
    have lhs_eq : ((List.range (n + 1)).map (fun j => f (n + 1 - 1 - j))).sum =
        f n + ((List.range n).map (fun j => f (n - 1 - j))).sum := by
      rw [List.range_succ_eq_map, List.map_cons, List.sum_cons, List.map_map]
      have hmap : (List.range n).map ((fun j => f (n + 1 - 1 - j)) ∘ Nat.succ) =
          (List.range n).map (fun j => f (n - 1 - j)) := by
        apply List.map_congr_left
        intro j _
        simp only [Function.comp]
        congr 1
        omega
      rw [hmap]
      congr 2
    have rhs_eq : ((List.range (n + 1)).map f).sum =
        ((List.range n).map f).sum + f n := by
      rw [List.range_succ, List.map_append, List.sum_append, List.map_cons,
        List.map_nil, List.sum_cons, List.sum_nil]
      ring
    rw [lhs_eq, rhs_eq, ih]
    ring

theorem sum_map_add (u v : ℕ → ℚ) (l : List ℕ) :
    (l.map (fun j => u j + v j)).sum = (l.map u).sum + (l.map v).sum := by
  induction l with
  | nil => simp
  | cons x t ih =>
    rw [List.map_cons, List.map_cons, List.map_cons, List.sum_cons, List.sum_cons,
      List.sum_cons, ih]
    ring

theorem sum_indicator_hamming (b : ℕ) : ∀ n : ℕ,
    ((List.range n).map (fun j => if b.testBit j then (1 : ℚ) else 0)).sum =
      (hammingWeight n b : ℚ) := by
  intro n
  induction n with
  | zero => simp [hammingWeight]
  | succ n ih =>
    have hham : hammingWeight (n + 1) b =
        hammingWeight n b + (if b.testBit n then 1 else 0) := by
      rw [hammingWeight, hammingWeight, List.range_succ, List.filter_append,
        List.length_append]
      by_cases h : b.testBit n
      · simp [List.filter, h]
      · simp [List.filter, h]
    rw [List.range_succ, List.map_append, List.sum_append, ih, hham, List.map_cons,
      List.map_nil, List.sum_cons, List.sum_nil]
    by_cases h : b.testBit n
    · rw [if_pos h, if_pos h]
      push_cast
      ring
    · rw [if_neg h, if_neg h]
      push_cast
      ring

/-- The diagonal value the total particle-number operator encodes at basis
index `b` is the Hamming weight of `b`. -/
theorem diagValue_numberOperator (nq b : ℕ) :
    diagValue (numberOperator nq) nq b = Cplx.ofRat (hammingWeight nq b) := by
  rw [diagValue, numberOperator]
  rw [show (PauliwordOp.mk (List.replicate (nq + 1) (List.replicate nq false))
      (List.replicate nq false :: (List.range nq).map (eRow nq))
      (Cplx.ofRat ((nq : ℚ) / 2) :: List.replicate nq (Cplx.ofRat (-(1 / 2))))).Z_block =
      List.replicate nq false :: (List.range nq).map (eRow nq) from rfl]
  rw [show (PauliwordOp.mk (List.replicate (nq + 1) (List.replicate nq false))
      (List.replicate nq false :: (List.range nq).map (eRow nq))
      (Cplx.ofRat ((nq : ℚ) / 2) :: List.replicate nq (Cplx.ofRat (-(1 / 2))))).coeff_vec =
      Cplx.ofRat ((nq : ℚ) / 2) :: List.replicate nq (Cplx.ofRat (-(1 / 2))) from rfl]
  rw [List.zip_cons_cons, zip_map_range_replicate, List.map_cons, csum_cons,
    List.map_map, andCount_replicate_false, signQ_zero]
  have htail : ∀ j ∈ List.range nq,
      ((fun zc => zc.2.mul (Cplx.ofRat (signQ (andCount zc.1 (idxBits nq b))))) ∘
        (fun x => (eRow nq x, Cplx.ofRat (-(1 / 2))))) j =
      Cplx.ofRat (-(1 / 2) * (if b.testBit (nq - 1 - j) then (-1 : ℚ) else 1)) := by
    intro j hj
    rw [List.mem_range] at hj
    simp only [Function.comp]
    rw [andCount_eRow nq b j hj, Cplx.mul_ofRat]
    congr 2
    by_cases h : b.testBit (nq - 1 - j)
    · rw [if_pos h, if_pos h, signQ_one]
    · rw [if_neg h, if_neg h, signQ_zero]
  rw [List.map_congr_left htail, csum_map_ofRat, Cplx.mul_ofRat, Cplx.add_ofRat]
  congr 1
  have hsplit : ∀ j ∈ List.range nq,
      (-(1 / 2) * (if b.testBit (nq - 1 - j) then (-1 : ℚ) else 1)) =
      ((fun i => -(1 / 2 : ℚ) + (if b.testBit i then (1 : ℚ) else 0)) (nq - 1 - j)) := by
    intro j _
    by_cases h : b.testBit (nq - 1 - j)
    · rw [if_pos h]
      simp only [if_pos h]
      norm_num
    · rw [if_neg h]
      simp only [if_neg h]
      norm_num
  rw [List.map_congr_left hsplit,
    sum_map_range_reflect (fun i => -(1 / 2 : ℚ) + (if b.testBit i then (1 : ℚ) else 0)) nq,
    sum_map_add (fun _ => -(1 / 2 : ℚ)) (fun i => if b.testBit i then (1 : ℚ) else 0),
    sum_indicator_hamming, List.map_const', List.length_range, List.sum_replicate,
    nsmul_eq_mul]
  ring

/-- C5: for a pure computational-basis eigenvector, the particle-number
expectation computed by `exact_gs_energy` — ±1 signs from the parity of the
bitwise AND of each Z mask with the basis index's bit pattern, weighted by
squared amplitude magnitudes, summed over basis components and accumulated
with the term coefficients — equals the value the diagonal operator encodes
at that basis index; in particular, for the total particle-number operator it
is exactly the integer Hamming weight of the basis index. -/
theorem basis_expectation_exact (nq b : ℕ) (hb : b < 2 ^ nq) :
    (∀ P : PauliwordOp, basisExpval P nq b = diagValue P nq b) ∧
    basisExpval (numberOperator nq) nq b = Cplx.ofRat (hammingWeight nq b) := by
  have hcollapse : ∀ P : PauliwordOp, basisExpval P nq b = diagValue P nq b := by
    intro P
    rw [basisExpval, cleanedState, from_array_unitVec nq (2 ^ nq) b hb, cleanup_pure,
      expval_single_row]
    rfl
  exact ⟨hcollapse, by rw [hcollapse, diagValue_numberOperator]⟩

/-- Witness for C5 on 2 qubits at basis index 3 (the state `|11⟩`, particle
count 2). -/
theorem basis_expectation_exact_witness :
    basisExpval (numberOperator 2) 2 3 = Cplx.ofRat (hammingWeight 2 3) :=
  (basis_expectation_exact 2 3 (by norm_num)).2

end Symmer

